import Mathlib

/-!
Verification development for the TreeSearch tracking-reconstruction core.

The definitions below are a shallow embedding of the C++ sources:
`PatternGenerator.cxx` (ChildIter, HashNode, PatternGenerator), `Road.cxx`
(Road building), `Hit.cxx` (HitPairIter) and the inline accessors of
`MWDC.h`, `Projection.h` and `WireHit.h`.  Machine doubles are modelled by
exact rationals; `UInt_t` wrap-around is made explicit where the code relies
on it.  Parts of the repository that are only declared but not present in
the sources (the `Pattern` accessors of `Pattern.h`, `TreeWalk.h` and
`PatternTree::Normalize`) are modelled from the specification and marked as
such in their doc comments.
-/

namespace TreeSearch

/-- Value of `(UInt_t)-1`, the initial `HashNode::fMinDepth`. -/
def uintMax : Nat := 4294967295

/-- Reduction of an `Int_t` value modulo `2^32`, as used when the code
converts a signed value to `UInt_t` (e.g. `UInt_t width = pat.GetWidth()`
in `PatternGenerator::TestSlope`). -/
def uintOf (i : Int) : Nat := (i % 4294967296).toNat

/-- One stored base pattern together with its `HashNode` bookkeeping.
`bits` is the `fBits` array of `Pattern` (`Pattern.h`, modelled from the
spec: an N-tuple of bin indices).  `children` is the singly linked list of
`Link`s headed at `Pattern::fChild`; each entry is `(index of the child
pattern in the store, link type)`.  `minDepth` is `HashNode::fMinDepth`.
`insDepth` is bookkeeping only (the `depth` argument of
`PatternGenerator::MakeChildNodes` at the moment the pattern was inserted
into the hash table); it is written once at creation and never read by any
of the modelled operations. -/
structure GenPat where
  bits : List Int
  children : List (Nat × Nat)
  minDepth : Nat
  insDepth : Nat
deriving Repr, DecidableEq

instance : Inhabited GenPat := ⟨⟨[0], [], uintMax, 0⟩⟩

/-- The pattern store.  In the source every distinct bit tuple is stored in
exactly one `HashNode` of the hash table (`PatternGenerator::AddHash` /
`Find`); we model the table as the list of stored patterns in insertion
order, with lookup by bit-tuple equality (`Pattern::operator==`), which is
equivalent because `Find` precedes every insertion. -/
abbrev GenState := List GenPat

/-- Read the pattern at index `j` of the store (a dereference of a
`Pattern*`/`HashNode*`; the default is never reached on the indices the
generator produces). -/
def getPat (st : GenState) (j : Nat) : GenPat := st.getD j default

/-- Apply `f` to the element at position `n`. -/
def modifyAt (f : GenPat → GenPat) : Nat → GenState → GenState
  | _, [] => []
  | 0, p :: ps => f p :: ps
  | n+1, p :: ps => p :: modifyAt f n ps

/-- `HashNode::UsedAtDepth`: lower `fMinDepth` of pattern `j` to `d` if `d`
is smaller. -/
def usedAtDepth (st : GenState) (j d : Nat) : GenState :=
  modifyAt (fun p => if d < p.minDepth then { p with minDepth := d } else p) j st

/-- Modelled from the spec: `Pattern::AddChild(child, type)` prepends a new
`Link(child, type, fChild)` to the child list (the `Link` constructor takes
`(pattern, type, next)`, as used for `root_link` in the source). -/
def addChild (st : GenState) (parent child ty : Nat) : GenState :=
  modifyAt (fun p => { p with children := (child, ty) :: p.children }) parent st

/-- `PatternGenerator::Find`: locate the stored pattern whose bits equal
`bits`. -/
def findIdx (st : GenState) (bits : List Int) : Option Nat :=
  st.findIdx? (fun p => decide (p.bits = bits))

/-- Bit `i` of the trial child with trial index `c` of `parent`
(`ChildIter::operator++`): `2*parent[i]`, plus one if bit `i` of `c` is
set. -/
def childBit (parent : List Int) (c : Nat) (i : Nat) : Int :=
  2 * parent.getD i 0 + (if c.testBit i then 1 else 0)

/-- One iteration of the trial loop of `ChildIter::operator++` for trial
index `c`: build the child bits, reject the trial when
`maxbit - minbit > |width|` (with `minbit` starting at 1, `maxbit` at 0 and
`width` the child pattern's `GetWidth()`, modelled from the spec as
`fBits[fNbits-1] - fBits[0]`), otherwise normalize (subtract one from every
bit when `minbit != 0`, setting the shift flag) and canonicalize (mirror
each bit to `|width| - bit` when `width < 0`, setting the mirror flag).
Returns the produced `(child bits, link type)`. -/
def mkChild (parent : List Int) (c : Nat) : Option (List Int × Nat) :=
  let n := parent.length
  let bits := (List.range n).map (childBit parent c)
  let minbit := bits.foldr min 1
  let maxbit := bits.foldr max 0
  let w := childBit parent c (n - 1) - childBit parent c 0
  if (w.natAbs : Int) < maxbit - minbit then none
  else
    let shift : Nat := if minbit = 0 then 0 else 1
    let bits1 := if minbit = 0 then bits else bits.map (fun b => b - 1)
    if w < 0 then some (bits1.map (fun b => (w.natAbs : Int) - b), shift + 2)
    else some (bits1, shift)

/-- The complete sequence of children yielded by a `ChildIter` over
`parent`: trial indices run from `2^nbits - 1` down to `0` and trials
rejected by the width filter are skipped. -/
def childCandidates (parent : List Int) : List (List Int × Nat) :=
  ((List.range (2 ^ parent.length)).reverse).filterMap (mkChild parent)

/-- `PatternGenerator::TestSlope` over exact rationals:
true when `width < 2` (as `UInt_t`) or `|(width-1)/2^depth| <= fMaxSlope`. -/
def testSlopeQ (maxSlope : ℚ) (bits : List Int) (depth : Nat) : Bool :=
  let w := uintOf (bits.getLastD 0 - bits.headD 0)
  if w < 2 then true
  else decide (|((w : ℚ) - 1) / (2 ^ depth : ℚ)| ≤ maxSlope)

/-- The plane loop of `PatternGenerator::LineCheck`, running over plane
index `i` from `nplanes - 2` down to `1`; the four accumulators are
`xL`, `xR - 1`, `zL`, `zR`. -/
def lineCheckLoop (z : List ℚ) (pat : List Int) :
    Nat → ℚ → ℚ → ℚ → ℚ → Bool
  | 0, _, _, _, _ => true
  | i+1, xL, xRm1, zL, zR =>
    let zi := z.getD (i+1) 0
    let pb : ℚ := (pat.getD (i+1) 0 : Int)
    let dL := xL * zi - pb * zL
    if zL ≤ |dL| then false
    else
      let dR := xRm1 * zi - pb * zR
      if zR ≤ |dR| then false
      else
        if 0 < i then
          lineCheckLoop z pat i (if dR < 0 then pb else xL)
            (if 0 < dL then pb else xRm1)
            (if dR < 0 then zi else zL) (if 0 < dL then zi else zR)
        else
          lineCheckLoop z pat i xL xRm1 zL zR

/-- `PatternGenerator::LineCheck` over exact rationals: straight-line
band-intersection test for a normalized pattern, with the plane positions
`z`. -/
def lineCheckQ (z : List ℚ) (pat : List Int) : Bool :=
  let n := pat.length
  lineCheckLoop z pat (n - 2) ((pat.getD (n-1) 0 : Int) : ℚ)
    ((pat.getD (n-1) 0 : Int) : ℚ) (z.getD (n-1) 0) (z.getD (n-1) 0)

/-- The body of the candidate loop of `PatternGenerator::MakeChildNodes`
for one candidate `(bits, type)` produced by the `ChildIter`: if the
pattern already exists, link it from the parent iff
`depth >= fMinDepth || TestSlope` passes; if it is new, insert and link it
iff `TestSlope && LineCheck` pass (the new `HashNode` starts with
`fMinDepth = (UInt_t)-1`). -/
def processCand (ts : List Int → Nat → Bool) (lc : List Int → Bool)
    (depth pIdx : Nat) (st : GenState) (cand : List Int × Nat) : GenState :=
  match findIdx st cand.1 with
  | some j =>
    let node := getPat st j
    if node.minDepth ≤ depth || ts node.bits depth then
      addChild st pIdx j cand.2
    else st
  | none =>
    if ts cand.1 depth && lc cand.1 then
      addChild (st ++ [⟨cand.1, [], uintMax, depth⟩]) pIdx st.length cand.2
    else st

/-- `PatternGenerator::MakeChildNodes(pnode, depth)`: mark the parent used
at `depth - 1`; stop at `depth >= fNlevels`; generate the child links once
(when the parent has none) by folding `processCand` over the `ChildIter`
sequence; then walk the link list, going deeper for a link iff the child
has no children yet or its `fMinDepth` exceeds the current depth.  `fuel`
only bounds the recursion depth; every run of `Generate` supplies more
fuel than the `depth >= fNlevels` base case can consume. -/
def makeChildNodes (ts : List Int → Nat → Bool) (lc : List Int → Bool)
    (nLevels : Nat) : Nat → Nat → Nat → GenState → GenState
  | 0, _, _, st => st
  | fuel+1, pIdx, depth, st =>
    let st1 := if 0 < depth then usedAtDepth st pIdx (depth - 1) else st
    if nLevels ≤ depth then st1
    else
      let st2 := if (getPat st1 pIdx).children.isEmpty then
          (childCandidates (getPat st1 pIdx).bits).foldl
            (processCand ts lc depth pIdx) st1
        else st1
      ((getPat st2 pIdx).children).foldl
        (fun s l =>
          if (getPat s l.1).children.isEmpty || depth < (getPat s l.1).minDepth
          then makeChildNodes ts lc nLevels fuel l.1 (depth + 1) s
          else s)
        st2

/-- The tree build performed by `PatternGenerator::Generate` after
parameter normalization: start from the all-zero root pattern at depth 0
(whose `HashNode` starts with `fMinDepth = (UInt_t)-1`) and run
`MakeChildNodes(hroot, 1)`.  Returns the final hash-table contents. -/
def generateTable (ts : List Int → Nat → Bool) (lc : List Int → Bool)
    (nLevels nPlanes : Nat) : GenState :=
  makeChildNodes ts lc nLevels (nLevels + 1) 0 1
    [⟨List.replicate nPlanes 0, [], uintMax, 0⟩]

/-- The `TreeParam_t` parameter block of `PatternGenerator::Generate`. -/
structure TreeParam where
  maxdepth : Nat
  width : ℚ
  zpos : List ℚ
  maxslope : ℚ
deriving Repr, DecidableEq

/-- Strictly increasing test for a z-position list. -/
def strictlyIncr : List ℚ → Bool
  | [] => true
  | [_] => true
  | a :: b :: rest => decide (a < b) && strictlyIncr (b :: rest)

/-- Modelled from the spec: `PatternTree::Normalize` (not in the sources).
Valid parameters are `maxDepth ∈ [1..16]`, `width > 0`, `zpos` strictly
increasing with at least 2 entries, `maxSlope ≥ 0`; normalization maps the
z-positions to `[0,1]`.  Invalid parameters are rejected (non-zero return
in the source, `none` here). -/
def normalizeParam (p : TreeParam) : Option TreeParam :=
  let znorm := p.zpos.map
    (fun z => (z - p.zpos.headD 0) / (p.zpos.getLastD 1 - p.zpos.headD 0))
  if 1 ≤ p.maxdepth ∧ p.maxdepth ≤ 16 ∧ 0 < p.width ∧ 2 ≤ p.zpos.length ∧
      strictlyIncr p.zpos = true ∧ 0 ≤ p.maxslope then
    some { p with zpos := znorm }
  else none

/-- `PatternGenerator::Generate(parameters)`, with the returned
`PatternTree*` modelled as an `Option` and the internal hash table returned
alongside it for inspection.  After a failed `Normalize` the function
returns zero.  Otherwise the build runs, but the source then initializes
`PatternTree* tree = 0` (the construction is commented out), so the
returned pointer is null in every case. -/
def GenerateFull (p : TreeParam) : GenState × Option Unit :=
  match normalizeParam p with
  | none => ([], none)
  | some q =>
    (generateTable (testSlopeQ q.maxslope) (lineCheckQ q.zpos)
      (p.maxdepth + 1) q.zpos.length, none)

/-- The return value of `PatternGenerator::Generate`. -/
def Generate (p : TreeParam) : Option Unit := (GenerateFull p).2

/-!  Serialization (`WritePattern`, `swapped_binary_write`,
`PatternGenerator::Write`).  The byte stream is modelled as a list of byte
values. -/

/-- The index size chosen by `PatternGenerator::Write` from the pattern
count of the build statistics: 1 byte below `2^8` patterns, 2 below
`2^16`, else `sizeof(Int_t) = 4`. -/
def sizeFor (n : Nat) : Nat := if n < 256 then 1 else if n < 65536 then 2 else 4

/-- `swapped_binary_write` of one `UShort_t`: two bytes, most significant
first. -/
def u16BE (n : Nat) : List Nat := [n / 256 % 256, n % 256]

/-- `swapped_binary_write( *os, idx, 1, sizeof(Int_t) - fIdxSiz )` for an
`Int_t` index: the low `s` bytes of the four-byte big-endian
representation, i.e. the `s`-byte big-endian encoding of `i mod 2^(8s)`. -/
def beIdx (s i : Nat) : List Nat :=
  (List.range s).map (fun k => i / 256 ^ (s - 1 - k) % 256)

/-- State of a `WritePattern` visitor: `seen` is the key set of the
`map<Pattern*,Int_t> fMap` in first-visit order (so the value stored for a
pattern is its position in `seen`), `out` the bytes written so far. -/
structure WOut where
  seen : List Nat
  out : List Nat
deriving Repr, DecidableEq

/-- Position of pattern index `j` in the first-visit list (the `Int_t`
stored in `fMap`). -/
def posOf (j : Nat) : List Nat → Option Nat
  | [] => none
  | k :: ks => if k = j then some 0 else (posOf j ks).map (· + 1)

/-- One visit of `WritePattern::operator()` on the node reached through a
link `(j, ty)`, combined with the dispatch of the tree walk (modelled from
the spec: `TreeWalk` is a pre-order depth-first traversal in which a
visitor result of 0 recurses into the child links in list order and a
result of 1 prunes the subtree).  A first visit records the pattern in
`fMap`, writes the header byte `type | 0x80`, the pattern bits `[1..N)` as
big-endian `UShort_t`s, and the big-endian `UShort_t` child count, then
recurses into the child links in list order; a revisit writes the plain
type byte and the recorded index in `fIdxSiz` bytes and prunes. -/
def wVisit (st : GenState) (isiz : Nat) : Nat → Nat × Nat → WOut → WOut
  | 0, _, w => w
  | fuel+1, l, w =>
    match posOf l.1 w.seen with
    | some i => ⟨w.seen, w.out ++ [l.2] ++ beIdx isiz i⟩
    | none =>
      let p := getPat st l.1
      p.children.foldl (fun w2 l2 => wVisit st isiz fuel l2 w2)
        ⟨w.seen ++ [l.1],
         w.out ++ [l.2 ||| 128]
           ++ (p.bits.drop 1).flatMap (fun b => u16BE (b.toNat % 65536))
           ++ u16BE (p.children.length % 65536)⟩

/-- `PatternGenerator::Write`: choose the index size from the stored
pattern count, then walk the tree from `Link(root pattern, 0, 0)` with a
`WritePattern` visitor.  The fuel bounds the nesting depth of first
visits, which cannot exceed the number of stored patterns plus one. -/
def serializeTable (st : GenState) : List Nat :=
  (wVisit st (sizeFor st.length) (st.length + 2) (0, 0) ⟨[], []⟩).out

/-!  Road building (`Road.cxx`).  A hit is identified by the plane number
returned by `GetWirePlane()->GetPlaneNum()` together with an identity tag
standing for the object address; a `set<Hit*>` becomes a `Finset`. -/

/-- A detector hit as seen by `Road`: `(plane number, identity)`. -/
abbrev RHit := Nat × Nat

/-- `kMaxUShort`, the initial value of the road bounds `fLeft[0..1]`. -/
def kMaxUShort : Nat := 65535

/-- The part of a `NodeDescriptor` that `Road` reads: the hit set attached
to the matched pattern, the actual bin numbers `nd[i]` used for the road
bounds, and the mutable `used` flag. -/
structure RNode where
  hits : Finset RHit
  bins : List Nat
  used : Nat
deriving DecidableEq

/-- `Road::CheckMatch(hits)`: set a bit for the plane of every hit, then
accept iff at most `kMaxmiss = 1` of the `fNplanes` planes is missing. -/
def checkMatch (nplanes : Nat) (hits : Finset RHit) : Bool :=
  decide (((Finset.range nplanes).filter
    (fun i => i ∉ hits.image Prod.fst)).card ≤ 1)

/-- The `BuildInfo_t` block owned by a road while it is being built. -/
structure BuildInfo where
  patterns : List RNode
  commonHits : Finset RHit
  nlayers : Nat
  nplanes : Nat
deriving DecidableEq

/-- The data members of a `Road` that `Add`/`Finish` touch. -/
structure RoadState where
  fHits : Finset RHit
  fLeft : Nat × Nat
  fRight : Nat × Nat
  build : Option BuildInfo
deriving DecidableEq

/-- `Road::Road(proj)`: empty pattern list, bounds at
`(kMaxUShort, 0)`, and a fresh `BuildInfo_t` recording the projection's
layer and plane counts. -/
def mkRoad (nlayers nplanes : Nat) : RoadState :=
  ⟨∅, (kMaxUShort, kMaxUShort), (0, 0), some ⟨[], ∅, nlayers, nplanes⟩⟩

/-- The bound update at the end of `Road::Add`:
`fLeft[0] = min(nd[0], fLeft[0])`, `fLeft[1] = min(nd[n], fLeft[1])` and
symmetrically for `fRight`, with `n = fNlayers - 1`. -/
def pushBounds (r : RoadState) (nd : RNode) (nlayers : Nat) : RoadState :=
  { r with
    fLeft := (min (nd.bins.getD 0 0) r.fLeft.1,
              min (nd.bins.getD (nlayers - 1) 0) r.fLeft.2),
    fRight := (max (nd.bins.getD 0 0) r.fRight.1,
               max (nd.bins.getD (nlayers - 1) 0) r.fRight.2) }

/-- `Road::Add(nd)`.  Returns the `Bool_t` result together with the
updated road.  A finished road (no build info) rejects.  The first pattern
is accepted iff `CheckMatch(nd.hits)` passes and seeds
`fCommonHits = fHits = nd.hits`.  A later pattern intersects its hits with
the common set; if the intersection shrank and `CheckMatch` fails on it
the pattern is rejected, otherwise the shrunk set is adopted; `fHits` is
replaced by the union when the union is larger.  Accepted patterns are
appended to the build list and expand the road bounds. -/
def roadAdd (r : RoadState) (nd : RNode) : Bool × RoadState :=
  match r.build with
  | none => (false, r)
  | some b =>
    if b.patterns.isEmpty then
      if !checkMatch b.nplanes nd.hits then (false, r)
      else
        let b2 := { b with commonHits := nd.hits,
                           patterns := b.patterns ++ [nd] }
        (true, pushBounds { r with fHits := nd.hits, build := some b2 }
          nd b.nlayers)
    else
      let newCommons := nd.hits ∩ b.commonHits
      if newCommons.card < b.commonHits.card ∧
          !checkMatch b.nplanes newCommons then (false, r)
      else
        let b1 := if newCommons.card < b.commonHits.card then
            { b with commonHits := newCommons } else b
        let newHits := r.fHits ∪ nd.hits
        let fH := if newHits.card ≠ r.fHits.card then newHits else r.fHits
        let b2 := { b1 with patterns := b1.patterns ++ [nd] }
        (true, pushBounds { r with fHits := fH, build := some b2 }
          nd b.nlayers)

/-- A sequence of `Road::Add` calls; returns the final road and the list
of accepted `NodeDescriptor`s in order. -/
def runAdds (r : RoadState) : List RNode → RoadState × List RNode
  | [] => (r, [])
  | nd :: nds =>
    let step := roadAdd r nd
    let rest := runAdds step.2 nds
    (rest.1, if step.1 then nd :: rest.2 else rest.2)

/-- `Road::Finish`: for every pattern in the build list compute
`not_in_common = nd.hits \ fCommonHits` and set `nd.used` to 2 when it is
empty, else 1; then release the build info.  Returns the finished road and
the patterns with their updated `used` fields. -/
def roadFinish (r : RoadState) : RoadState × List RNode :=
  match r.build with
  | none => (r, [])
  | some b =>
    ({ r with build := none },
     b.patterns.map (fun nd =>
       { nd with used := if nd.hits \ b.commonHits = ∅ then 2 else 1 }))

/-- The intersection of the hit sets of a list of node descriptors (empty
for an empty list), `∩_i nd_i.hits`. -/
def interHits : List RNode → Finset RHit
  | [] => ∅
  | nd :: nds => nds.foldl (fun s n => s ∩ n.hits) nd.hits

/-- The common-hit set held by a road (empty once the road is finished). -/
def commonOf (r : RoadState) : Finset RHit :=
  match r.build with
  | none => ∅
  | some b => b.commonHits

/-!  `Road` copy construction and assignment (`Road.cxx` lines 60-95).
Only the scalar members involved in the copies are modelled; hit sets and
build info follow the same member-by-member copies and are omitted. -/

/-- The scalar data members of a `Road` copied by the copy constructor and
`operator=`. -/
structure RoadObj where
  fSlope : ℚ
  fPos : ℚ
  fChi2 : ℚ
  fLeft : Nat × Nat
  fRight : Nat × Nat
  fErr : ℚ × ℚ
deriving DecidableEq

/-- `Road::Road(const Road& orig)`: the member initializer list is
`fSlope(orig.fSlope), fPos(orig.fSlope), fChi2(orig.fChi2)` — note that
`fPos` is initialized from `orig.fSlope` — followed by element-wise copies
of `fLeft`, `fRight`, `fErr`. -/
def copyRoad (orig : RoadObj) : RoadObj :=
  { fSlope := orig.fSlope, fPos := orig.fSlope, fChi2 := orig.fChi2,
    fLeft := orig.fLeft, fRight := orig.fRight, fErr := orig.fErr }

/-- `Road::operator=(rhs)` on the `this != &rhs` branch: element-wise
copies of `fLeft` and `fRight`, then `fSlope = rhs.fSlope`,
`fPos = rhs.fPos`, `fChi2 = rhs.fChi2`, `fErr = rhs.fErr`. -/
def assignRoad (_this rhs : RoadObj) : RoadObj :=
  { fLeft := rhs.fLeft, fRight := rhs.fRight, fSlope := rhs.fSlope,
    fPos := rhs.fPos, fChi2 := rhs.fChi2, fErr := rhs.fErr }

/-!  `HitPairIter` (`Hit.cxx`).  The two `TIterator`s over the ordered hit
collections are modelled as the lists of not-yet-fetched hits; fetching
(`TIterator::Next`) pops the head.  `WireHit::Compare(rhs, maxdist)`
compares the drift intervals `[fPosL, fPosR]` (`WireHit.h`). -/

/-- A hit as seen by `HitPairIter`: left/right ambiguous positions and an
identity tag standing for the object address (the code compares hit
pointers with `!=`). -/
structure PHit where
  hid : Nat
  posL : ℚ
  posR : ℚ
deriving DecidableEq, Repr

/-- `WireHit::Compare(hit, maxdist)`: -1 when this hit lies left of `rhs`
by more than `maxdist`, +1 when right of it, 0 when the intervals overlap
within the tolerance. -/
def hitCompare (a b : PHit) (maxdist : ℚ) : Int :=
  if a.posR + maxdist < b.posL then -1
  else if b.posR + maxdist < a.posL then 1
  else 0

/-- State of a `HitPairIter`: remaining (unfetched) hits of the two
collections, the saved iterator `fSaveIter` and hit `fSaveHit`, the flags,
and the `fCurrent`/`fNext` pairs. -/
structure PairState where
  restA : List PHit
  restB : List PHit
  saveB : List PHit
  saveHit : Option PHit
  maxDist : ℚ
  started : Bool
  scanning : Bool
  current : Option PHit × Option PHit
  next : Option PHit × Option PHit
deriving DecidableEq, Repr

/-- The re-seek loop at the end of a scan in `HitPairIter::Next`:
`while( hitB != nextB && hitB->Compare(hitA,fMaxDist) < 0 ) hitB = next`,
returning the final `hitB` and the remaining `B` iterator. -/
def seekB (maxdist : ℚ) (a : PHit) (stopB : Option PHit) :
    Option PHit → List PHit → Option PHit × List PHit
  | hb, rb =>
    match hb with
    | none => (none, rb)
    | some b =>
      if stopB = some b then (hb, rb)
      else if hitCompare b a maxdist < 0 then
        match rb with
        | [] => (none, [])
        | c :: cs => seekB maxdist a stopB (some c) cs
      else (hb, rb)

/-- `HitPairIter::Next()`.  On the first call the `fNext` pair is seeded
with the heads of both collections.  `fCurrent` becomes `fNext`; then,
depending on `Compare`, the smaller side advances and is emitted as a
singleton, or on a match the `B` side looks ahead: if the next `B` hit
also matches, scanning mode fixes the `A` hit (saving the `B` iterator and
hit on entry); if the look-ahead ends a scan, the `B` iterator is restored
to the saved position, `A` advances, and `B` re-seeks past hits paired
with the prior `A`. -/
def pairNext (s0 : PairState) : PairState :=
  let s := if s0.started then s0 else
    { s0 with
      restA := s0.restA.tail, restB := s0.restB.tail,
      next := (s0.restA.head?, s0.restB.head?), started := true }
  let cur := s.next
  match cur with
  | (some hitA, some hitB) =>
    let c := hitCompare hitA hitB s.maxDist
    if c = -1 then
      { s with
        current := (some hitA, none),
        next := (s.restA.head?, cur.2), restA := s.restA.tail }
    else if c = 1 then
      { s with
        current := (none, some hitB),
        next := (cur.1, s.restB.head?), restB := s.restB.tail }
    else
      let nextB := s.restB.head?
      let s1 := { s with restB := s.restB.tail }
      let endScan := match nextB with
        | none => true
        | some nb => hitCompare hitA nb s.maxDist < 0
      if endScan then
        if s1.scanning then
          let restB2 := s1.saveB
          let hitA2 := s1.restA.head?
          let s2 := { s1 with scanning := false, restA := s1.restA.tail }
          match hitA2 with
          | some a2 =>
            let sk := seekB s1.maxDist a2 nextB s1.saveHit restB2
            { s2 with restB := sk.2, current := cur, next := (some a2, sk.1) }
          | none =>
            { s2 with restB := restB2, current := cur, next := (none, nextB) }
        else
          { s1 with
            current := cur, next := (s1.restA.head?, nextB),
            restA := s1.restA.tail }
      else
        let s2 := if s1.scanning then s1 else
          { s1 with
            scanning := true, saveB := s1.restB, saveHit := some hitB }
        { s2 with current := cur, next := (cur.1, nextB) }
  | (some _, none) =>
    { s with
      current := cur, next := (s.restA.head?, none),
      restA := s.restA.tail }
  | (none, some _) =>
    { s with
      current := cur, next := (none, s.restB.head?),
      restB := s.restB.tail }
  | (none, none) => { s with current := cur }

/-- `HitPairIter::HitPairIter(collA, collB, maxdist)`: fresh iterators
over both collections and one initializing call to `Next()`. -/
def mkPairIter (A B : List PHit) (maxdist : ℚ) : PairState :=
  pairNext ⟨A, B, B, none, maxdist, false, false, (none, none), (none, none)⟩

/-- The emitted pairs of a complete iteration: the `fCurrent` values after
construction and after each further `Next()`, up to (excluding) the
all-null terminating pair. -/
def pairEmissions : Nat → PairState → List (Option PHit × Option PHit)
  | 0, _ => []
  | fuel+1, s =>
    match s.current with
    | (none, none) => []
    | c => c :: pairEmissions fuel (pairNext s)

/-!  `MWDC::GetRefTime` (`MWDC.h`). -/

/-- The `kBig` sentinel (`1e38`). -/
def kBig : ℚ := 10 ^ 38

/-- The members of `MWDC` read by `GetRefTime`: the size of the reference
channel map `fRefMap` and the reference time vector `fRefTime`, documented
as having `fRefMap->GetSize()` entries. -/
structure MWDCState where
  refMapSize : Nat
  fRefTime : List ℚ

/-- `MWDC::GetRefTime(i)`:
`(i < (UInt_t)fRefMap->GetSize()) ? fRefTime[i] : kBig`. -/
def GetRefTime (m : MWDCState) (i : Nat) : ℚ :=
  if i < m.refMapSize then m.fRefTime.getD i 0 else kBig

/-!  Theorems.  Concrete evaluations below unfold the rational arithmetic
of Batteries, which is `@[irreducible]` by default. -/

section ConcreteEvaluation

attribute [local semireducible] Rat.add Rat.mul Rat.sub Rat.inv

/-- C1: `PatternGenerator::Generate` never returns a tree.  For invalid
parameters `Normalize` fails and zero is returned, as the claim says; but
for valid parameters the function also returns zero, because the
`PatternTree` construction is commented out in the source
(`PatternTree* tree = 0; ... return tree;`), contradicting the function's
own documentation "Returns a pointer to the generated tree, or zero if
error".  The second conjunct shows a concrete valid parameter set
(maxDepth 1, width 1, zpos `[0,1]`, maxSlope 0) that normalizes
successfully yet still receives a null tree. -/
theorem c1_generate_returns_null :
    (∀ p : TreeParam, Generate p = none) ∧
      normalizeParam ⟨1, 1, [0, 1], 0⟩ ≠ none ∧
      Generate ⟨1, 1, [0, 1], 0⟩ = none := by
  refine ⟨fun p => ?_, by decide, rfl⟩
  unfold Generate GenerateFull
  cases normalizeParam p <;> rfl

/-- C7: the claim's expected result for
`params = {maxDepth=1, width=1, zpos=[0,1], maxSlope=0}` is wrong on the
code: the generated tree does not consist of a single childless pattern
and the file is not 4 bytes. -/
theorem c7_trivial_tree_counterexample :
    ¬ ((GenerateFull ⟨1, 1, [0, 1], 0⟩).1.length = 1 ∧
       (serializeTable (GenerateFull ⟨1, 1, [0, 1], 0⟩).1).length = 4) := by
  decide

/-- C7 (amended): for `params = {maxDepth=1, width=1, zpos=[0,1],
maxSlope=0}` the generator stores two patterns, `[0,0]` (the root) and
`[0,1]` (`TestSlope` passes any pattern of width `< 2` even at
`maxSlope = 0`, and with two planes `LineCheck` is vacuous); the root
carries four child links (types 0,2,0,1 for trial indices 0..3); and the
serialized file is 16 bytes: the root record `128, 0,0, 0,4` (header,
one bin as a big-endian `UShort_t`, child count 4), a back-reference
`0, 0` to the root, the record `130, 0,1, 0,0` for `[0,1]`, a
back-reference `0, 1`, and a back-reference `1, 0`. -/
theorem c7_trivial_tree_amended :
    (GenerateFull ⟨1, 1, [0, 1], 0⟩).1.map GenPat.bits = [[0, 0], [0, 1]] ∧
    (getPat (GenerateFull ⟨1, 1, [0, 1], 0⟩).1 0).children
      = [(0, 0), (1, 2), (1, 0), (0, 1)] ∧
    serializeTable (GenerateFull ⟨1, 1, [0, 1], 0⟩).1
      = [128, 0, 0, 0, 4, 0, 0, 130, 0, 1, 0, 0, 0, 1, 1, 0] ∧
    (serializeTable (GenerateFull ⟨1, 1, [0, 1], 0⟩).1).length = 16 := by
  refine ⟨by decide, by decide, by decide, by decide⟩

/-- C4: the claim fails on the code.  For
`params = {maxDepth=4, width=1, zpos=[0,1], maxSlope=1/2}` the final hash
table contains a pattern (`[0,7]`, with final `fMinDepth = 3`) for which
`TestSlope` at the final `fMinDepth` is false: the subtree-extension
branch of `MakeChildNodes` (`node->fMinDepth > depth`) recurses into
already-generated children and lowers their `fMinDepth` through
`UsedAtDepth` without re-running the slope test. -/
theorem c4_minDepth_slope_counterexample :
    ¬ (∀ p ∈ (GenerateFull ⟨4, 1, [0, 1], 1/2⟩).1,
        (testSlopeQ (1/2) p.bits p.minDepth
          && lineCheckQ [0, 1] p.bits) = true) := by
  decide

/-- C8: the claim "every input hit appears in exactly one emitted pair"
fails, and the code contradicts its own contract.  With one `A` hit
overlapping the first three of four `B` hits, the scan-restore logic of
`HitPairIter::Next` re-emits already-consumed `B` hits: hit `b3`
(`hid = 3`) is emitted both paired with `a` and again as an unpaired
singleton, and hit `b4` (`hid = 4`) is emitted twice as a singleton —
although the code's own comment states that hits paired in a prior scan
"can't be considered unpaired".  (The `A` hit is also emitted in three
pairs, which the multi-match design intends.) -/
theorem c8_hitpairiter_duplicate_emission :
    pairEmissions 20
        (mkPairIter [⟨0, 5, 5⟩] [⟨1, 5, 5⟩, ⟨2, 5, 5⟩, ⟨3, 5, 5⟩, ⟨4, 7, 7⟩] 0)
      = [(some ⟨0, 5, 5⟩, some ⟨1, 5, 5⟩), (some ⟨0, 5, 5⟩, some ⟨2, 5, 5⟩),
         (some ⟨0, 5, 5⟩, some ⟨3, 5, 5⟩), (none, some ⟨4, 7, 7⟩),
         (none, some ⟨3, 5, 5⟩), (none, some ⟨4, 7, 7⟩)] ∧
    ((pairEmissions 20
        (mkPairIter [⟨0, 5, 5⟩] [⟨1, 5, 5⟩, ⟨2, 5, 5⟩, ⟨3, 5, 5⟩, ⟨4, 7, 7⟩] 0)).filter
      (fun e => e.2 = some ⟨3, 5, 5⟩)).length = 2 := by
  refine ⟨by decide, by decide⟩

/-- C9: the claim misattributes the bug.  `Road::operator=` copies `fPos`
correctly from `rhs.fPos`; at a source road with `fSlope = 2` and
`fPos = 1` the assigned road's `fPos` is 1, not the claimed
`orig.fSlope = 2`. -/
theorem c9_assign_counterexample :
    ¬ (assignRoad ⟨0, 0, 0, (0, 0), (0, 0), (0, 0)⟩
         ⟨2, 1, 0, (0, 0), (0, 0), (0, 0)⟩).fPos
      = (⟨2, 1, 0, (0, 0), (0, 0), (0, 0)⟩ : RoadObj).fSlope := by
  decide

/-- C9 (amended): the `fSlope`-into-`fPos` copy is in the copy
constructor `Road::Road(const Road&)`, whose initializer list reads
`fPos(orig.fSlope)`; `Road::operator=` assigns `fPos = rhs.fPos`
correctly. -/
theorem c9_copy_ctor_amended :
    (∀ orig : RoadObj, (copyRoad orig).fPos = orig.fSlope) ∧
    (∀ r rhs : RoadObj, (assignRoad r rhs).fPos = rhs.fPos) :=
  ⟨fun _ => rfl, fun _ _ => rfl⟩

end ConcreteEvaluation

/-- C10: `MWDC::GetRefTime(i)` returns `fRefTime[i]` for `i` inside the
reference map and `kBig` otherwise; under the documented size invariant
`fRefTime.size == fRefMap->GetSize()` the in-range access is in bounds,
and the out-of-range case never touches the vector. -/
theorem c10_getRefTime_bounds (m : MWDCState) (i : Nat)
    (hlen : m.fRefTime.length = m.refMapSize) :
    (i < m.refMapSize →
      ∃ h : i < m.fRefTime.length, GetRefTime m i = m.fRefTime.get ⟨i, h⟩) ∧
    (m.refMapSize ≤ i → GetRefTime m i = kBig) := by
  constructor
  · intro hi
    have h : i < m.fRefTime.length := by omega
    refine ⟨h, ?_⟩
    simp only [GetRefTime, if_pos hi]
    simp [List.getD_eq_getElem?_getD, List.getElem?_eq_getElem h]
  · intro hi
    simp [GetRefTime, Nat.not_lt_of_le hi]

/-- C10 witness: a concrete reference map of size 2. -/
theorem c10_getRefTime_bounds_witness :
    GetRefTime ⟨2, [3, 4]⟩ 1 = 4 ∧ GetRefTime ⟨2, [3, 4]⟩ 5 = kBig := by
  have h1 := (c10_getRefTime_bounds ⟨2, [3, 4]⟩ 1 rfl).1 (by decide)
  have h2 := (c10_getRefTime_bounds ⟨2, [3, 4]⟩ 5 rfl).2 (by decide)
  exact ⟨by rw [h1.choose_spec]; rfl, h2⟩

/-!  Road building invariants (claims about `Road::Add` / `Road::Finish`). -/

/-- The invariant maintained by `Road::Add` while a road with plane count
`np` is being built: the build list records exactly the accepted node
descriptors `acc`; once the road is seeded, `fCommonHits` is the
intersection of the accepted hit sets and satisfies `CheckMatch`; and
`fCommonHits ⊆ fHits`. -/
def RoadInv (np : Nat) (r : RoadState) (acc : List RNode) : Prop :=
  ∃ b, r.build = some b ∧ b.patterns = acc ∧ b.nplanes = np ∧
    (acc = [] → b.commonHits = ∅ ∧ r.fHits = ∅) ∧
    (acc ≠ [] → b.commonHits = interHits acc ∧
      checkMatch np b.commonHits = true) ∧
    b.commonHits ⊆ r.fHits

theorem interHits_append (acc : List RNode) (nd : RNode) (h : acc ≠ []) :
    interHits (acc ++ [nd]) = interHits acc ∩ nd.hits := by
  cases acc with
  | nil => exact absurd rfl h
  | cons a l => simp [interHits, List.foldl_append]

theorem commonOf_eq (r : RoadState) (b : BuildInfo)
    (hb : r.build = some b) : commonOf r = b.commonHits := by
  unfold commonOf
  rw [hb]

theorem roadAdd_inv (np : Nat) (r : RoadState) (acc : List RNode)
    (nd : RNode) (h : RoadInv np r acc) :
    RoadInv np (roadAdd r nd).2
      (acc ++ if (roadAdd r nd).1 then [nd] else []) := by
  obtain ⟨b, hb, hpat, hnp, hemp, hne, hsub⟩ := h
  subst hnp
  by_cases hacc : acc = []
  · subst hacc
    have hbe : b.patterns.isEmpty = true := by rw [hpat]; rfl
    by_cases hcm : checkMatch b.nplanes nd.hits = true
    · simp only [roadAdd, hb, hbe, if_true, hcm, Bool.not_true,
        Bool.false_eq_true, if_false]
      refine ⟨_, rfl, ?_, rfl, ?_, ?_, ?_⟩
      · simp [hpat]
      · intro hcon; simp at hcon
      · intro _
        refine ⟨?_, ?_⟩
        · simp [hpat, interHits]
        · simpa [hpat, interHits] using hcm
      · intro x hx; simpa using hx
    · have hcm2 : checkMatch b.nplanes nd.hits = false :=
        Bool.not_eq_true _ ▸ eq_false_of_ne_true hcm
      simp only [roadAdd, hb, hbe, if_true, hcm2, Bool.not_false, if_true]
      exact ⟨b, hb, hpat, rfl, hemp, hne, hsub⟩
  · have hbe : b.patterns.isEmpty = false := by
      rw [hpat]
      cases acc with
      | nil => exact absurd rfl hacc
      | cons a l => rfl
    obtain ⟨hcommon, hcheck⟩ := hne hacc
    simp only [roadAdd, hb, hbe, Bool.false_eq_true, if_false]
    by_cases hrej : (nd.hits ∩ b.commonHits).card < b.commonHits.card ∧
        (!checkMatch b.nplanes (nd.hits ∩ b.commonHits)) = true
    · rw [if_pos hrej]
      simp only [Bool.false_eq_true, if_false, List.append_nil]
      exact ⟨b, hb, hpat, rfl, hemp, hne, hsub⟩
    · rw [if_neg hrej]
      simp only [if_true, List.append_nil]
      have hcnew : (if (nd.hits ∩ b.commonHits).card < b.commonHits.card
          then { b with commonHits := nd.hits ∩ b.commonHits }
          else b).commonHits = nd.hits ∩ b.commonHits := by
        by_cases hsz : (nd.hits ∩ b.commonHits).card < b.commonHits.card
        · rw [if_pos hsz]
        · rw [if_neg hsz]
          exact (Finset.eq_of_subset_of_card_le Finset.inter_subset_right
            (Nat.le_of_not_lt hsz)).symm
      have hpnew : (if (nd.hits ∩ b.commonHits).card < b.commonHits.card
          then { b with commonHits := nd.hits ∩ b.commonHits }
          else b).patterns = b.patterns := by
        by_cases hsz : (nd.hits ∩ b.commonHits).card < b.commonHits.card
        · rw [if_pos hsz]
        · rw [if_neg hsz]
      have hnpnew : (if (nd.hits ∩ b.commonHits).card < b.commonHits.card
          then { b with commonHits := nd.hits ∩ b.commonHits }
          else b).nplanes = b.nplanes := by
        by_cases hsz : (nd.hits ∩ b.commonHits).card < b.commonHits.card
        · rw [if_pos hsz]
        · rw [if_neg hsz]
      have hfnew : (if (r.fHits ∪ nd.hits).card ≠ r.fHits.card
          then r.fHits ∪ nd.hits else r.fHits) = r.fHits ∪ nd.hits := by
        by_cases hsz : (r.fHits ∪ nd.hits).card ≠ r.fHits.card
        · rw [if_pos hsz]
        · rw [if_neg hsz]
          simp only [Ne, Decidable.not_not] at hsz
          exact Finset.eq_of_subset_of_card_le Finset.subset_union_left
            (Nat.le_of_eq hsz)
      have hchecknew :
          checkMatch b.nplanes (nd.hits ∩ b.commonHits) = true := by
        by_cases hsz : (nd.hits ∩ b.commonHits).card < b.commonHits.card
        · rcases Decidable.not_and_iff_or_not.mp hrej with hcon | hok
          · exact absurd hsz hcon
          · simpa using hok
        · have heq : nd.hits ∩ b.commonHits = b.commonHits :=
            Finset.eq_of_subset_of_card_le Finset.inter_subset_right
              (Nat.le_of_not_lt hsz)
          rw [heq]; exact hcheck
      refine ⟨_, rfl, ?_, by rw [hnpnew], ?_, ?_, ?_⟩
      · rw [hpnew, hpat]
      · intro hcon; simp [hpnew, hpat] at hcon
      · intro _
        refine ⟨?_, ?_⟩
        · rw [hcnew, hcommon, ← Finset.inter_comm,
            ← interHits_append acc nd hacc]
        · rw [hcnew]; exact hchecknew
      · simp only [hcnew, hfnew]
        intro x hx
        have hxc : x ∈ b.commonHits := (Finset.mem_inter.mp hx).2
        exact Finset.mem_union_left _ (hsub hxc)

theorem roadAdd_card_le (np : Nat) (r : RoadState) (acc : List RNode)
    (nd : RNode) (h : RoadInv np r acc) (hacc : acc ≠ []) :
    (commonOf (roadAdd r nd).2).card ≤ (commonOf r).card := by
  obtain ⟨b, hb, hpat, _, _, _, _⟩ := h
  have hbe : b.patterns.isEmpty = false := by
    rw [hpat]
    cases acc with
    | nil => exact absurd rfl hacc
    | cons a l => rfl
  rw [commonOf_eq r b hb]
  simp only [roadAdd, hb, hbe, Bool.false_eq_true, if_false]
  by_cases hrej : (nd.hits ∩ b.commonHits).card < b.commonHits.card ∧
      (!checkMatch b.nplanes (nd.hits ∩ b.commonHits)) = true
  · rw [if_pos hrej]
    rw [commonOf_eq r b hb]
  · rw [if_neg hrej]
    rw [commonOf_eq _ _ rfl]
    by_cases hsz : (nd.hits ∩ b.commonHits).card < b.commonHits.card
    · rw [if_pos hsz]
      exact Nat.le_of_lt hsz
    · rw [if_neg hsz]

theorem runAdds_inv (np : Nat) :
    ∀ (nds : List RNode) (r : RoadState) (acc : List RNode),
      RoadInv np r acc →
      RoadInv np (runAdds r nds).1 (acc ++ (runAdds r nds).2)
  | [], r, acc, h => by simpa [runAdds] using h
  | nd :: nds, r, acc, h => by
    have h2 := runAdds_inv np nds (roadAdd r nd).2
      (acc ++ if (roadAdd r nd).1 then [nd] else [])
      (roadAdd_inv np r acc nd h)
    simp only [runAdds]
    cases hok : (roadAdd r nd).1
    · rw [hok] at h2
      simpa using h2
    · rw [hok] at h2
      simpa [List.append_assoc] using h2

theorem runAdds_append_single (r : RoadState) (nds : List RNode)
    (nd : RNode) :
    (runAdds r (nds ++ [nd])).1 = (roadAdd (runAdds r nds).1 nd).2 := by
  induction nds generalizing r with
  | nil => simp [runAdds]
  | cons a l ih =>
    simp only [List.cons_append, runAdds]
    exact ih (roadAdd r a).2

/-- C2: while a road is being built, after each accepted `Add` the common
hit set equals the intersection of the accepted descriptors' hit sets,
`CheckMatch` holds on it, it is contained in the accumulated `fHits`, and
one further `Add` (accepted or not) never increases its size. -/
theorem c2_road_add_invariants (nl np : Nat) (nds : List RNode) :
    ((runAdds (mkRoad nl np) nds).2 ≠ [] →
      commonOf (runAdds (mkRoad nl np) nds).1
          = interHits (runAdds (mkRoad nl np) nds).2 ∧
        checkMatch np (commonOf (runAdds (mkRoad nl np) nds).1) = true ∧
        commonOf (runAdds (mkRoad nl np) nds).1
          ⊆ (runAdds (mkRoad nl np) nds).1.fHits) ∧
    (∀ nd : RNode, (runAdds (mkRoad nl np) nds).2 ≠ [] →
      (commonOf (runAdds (mkRoad nl np) (nds ++ [nd])).1).card
        ≤ (commonOf (runAdds (mkRoad nl np) nds).1).card) := by
  have h0 : RoadInv np (mkRoad nl np) [] :=
    ⟨⟨[], ∅, nl, np⟩, rfl, rfl, rfl, fun _ => ⟨rfl, rfl⟩,
      fun hcon => absurd rfl hcon, by simp⟩
  have hinv := runAdds_inv np nds (mkRoad nl np) [] h0
  rw [List.nil_append] at hinv
  obtain ⟨b, hb, hpat, hnp, hem, hne, hsub⟩ := hinv
  constructor
  · intro hacc
    obtain ⟨hcommon, hcheck⟩ := hne hacc
    refine ⟨?_, ?_, ?_⟩
    · rw [commonOf_eq _ _ hb]; exact hcommon
    · rw [commonOf_eq _ _ hb]; exact hcheck
    · rw [commonOf_eq _ _ hb]; exact hsub
  · intro nd hacc
    rw [runAdds_append_single]
    exact roadAdd_card_le np (runAdds (mkRoad nl np) nds).1
      (runAdds (mkRoad nl np) nds).2 nd
      ⟨b, hb, hpat, hnp, hem, hne, hsub⟩ hacc

/-- C2 witness: a two-plane road accepting a single descriptor whose two
hits cover both planes. -/
theorem c2_road_add_invariants_witness :
    commonOf (runAdds (mkRoad 2 2) [⟨{(0, 0), (1, 0)}, [2, 3], 0⟩]).1
        = interHits (runAdds (mkRoad 2 2) [⟨{(0, 0), (1, 0)}, [2, 3], 0⟩]).2 ∧
      checkMatch 2
        (commonOf (runAdds (mkRoad 2 2) [⟨{(0, 0), (1, 0)}, [2, 3], 0⟩]).1)
        = true := by
  have h := (c2_road_add_invariants 2 2 [⟨{(0, 0), (1, 0)}, [2, 3], 0⟩]).1
    (by decide)
  exact ⟨h.1, h.2.1⟩

/-- C3: after `Road::Finish`, every descriptor that was accepted into the
road carries `used ∈ {1, 2}`, and `used = 2` exactly when its hits are all
contained in the road's final common hit set (i.e. the set difference
`nd.hits \ fCommonHits` is empty). -/
theorem c3_road_finish_used (nl np : Nat) (nds : List RNode) (nd : RNode)
    (hnd : nd ∈ (roadFinish (runAdds (mkRoad nl np) nds).1).2) :
    (nd.used = 1 ∨ nd.used = 2) ∧
      (nd.used = 2 ↔ nd.hits ⊆ commonOf (runAdds (mkRoad nl np) nds).1) := by
  rcases hb : (runAdds (mkRoad nl np) nds).1.build with _ | b
  · rw [roadFinish, hb] at hnd
    exact absurd hnd (List.not_mem_nil nd)
  · rw [roadFinish, hb] at hnd
    obtain ⟨nd0, _, hnd0⟩ := List.mem_map.mp hnd
    by_cases hs : nd0.hits \ b.commonHits = ∅
    · have hu : nd.used = 2 := by rw [← hnd0]; simp [hs]
      have hh : nd.hits = nd0.hits := by rw [← hnd0]
      refine ⟨Or.inr hu, ?_⟩
      rw [hu, commonOf, hb, hh]
      simp [Finset.sdiff_eq_empty_iff_subset.mp hs]
    · have hu : nd.used = 1 := by rw [← hnd0]; simp [hs]
      have hh : nd.hits = nd0.hits := by rw [← hnd0]
      refine ⟨Or.inl hu, ?_⟩
      rw [hu, commonOf, hb, hh]
      have hns : ¬ nd0.hits ⊆ b.commonHits := fun hcon =>
        hs (Finset.sdiff_eq_empty_iff_subset.mpr hcon)
      simp [hns]

/-- C3 witness: the single accepted descriptor of the C2 witness road is
fully consumed (`used = 2`) after `Finish`. -/
theorem c3_road_finish_used_witness :
    ((⟨{(0, 0), (1, 0)}, [2, 3], 2⟩ : RNode).used = 1 ∨
      (⟨{(0, 0), (1, 0)}, [2, 3], 2⟩ : RNode).used = 2) ∧
    ((⟨{(0, 0), (1, 0)}, [2, 3], 2⟩ : RNode).used = 2 ↔
      (⟨{(0, 0), (1, 0)}, [2, 3], 2⟩ : RNode).hits ⊆
        commonOf (runAdds (mkRoad 2 2) [⟨{(0, 0), (1, 0)}, [2, 3], 0⟩]).1) :=
  c3_road_finish_used 2 2 [⟨{(0, 0), (1, 0)}, [2, 3], 0⟩]
    ⟨{(0, 0), (1, 0)}, [2, 3], 2⟩ (by decide)

/-!  Serialization format (claim C6). -/

theorem beIdx_length (s i : Nat) : (beIdx s i).length = s := by
  simp [beIdx]

theorem beIdx_decode (s i : Nat) (hs : s = 1 ∨ s = 2 ∨ s = 4)
    (hi : i < 256 ^ s) :
    (beIdx s i).foldl (fun a c => 256 * a + c) 0 = i := by
  rcases hs with rfl | rfl | rfl <;>
    simp only [beIdx, List.range_succ, List.range_zero, List.map,
      List.foldl, List.nil_append, List.cons_append] <;>
    norm_num <;> omega

/-- C6: the byte-level behaviour of one `WritePattern` visit.  On a
revisit of an already-recorded pattern (back-reference) the visitor
appends exactly the plain link-type byte followed by the first-seen index
in `fIdxSiz` big-endian bytes — the index bytes decode back to the index —
and prunes the subtree (the first-visit record `fMap` is unchanged, no
child is visited).  On a first visit it appends the header byte
`type | 0x80 = type + 128 ∈ [128,130]`, the pattern bits `[1..N)` as
big-endian `UShort_t`s and the big-endian `UShort_t` child count, records
the pattern, and recurses into the child links in order.  The index size
is 1 byte when the total pattern count is below `2^8`, 2 below `2^16`,
else 4. -/
theorem c6_serialization_format (st : GenState) (total fuel : Nat)
    (l : Nat × Nat) (w : WOut) (hty : l.2 ≤ 2) :
    (∀ i, posOf l.1 w.seen = some i → i < 256 ^ sizeFor total →
      (wVisit st (sizeFor total) (fuel+1) l w).out
          = w.out ++ [l.2] ++ beIdx (sizeFor total) i ∧
        (wVisit st (sizeFor total) (fuel+1) l w).seen = w.seen ∧
        (beIdx (sizeFor total) i).length = sizeFor total ∧
        (beIdx (sizeFor total) i).foldl (fun a c => 256 * a + c) 0 = i) ∧
    (posOf l.1 w.seen = none →
      wVisit st (sizeFor total) (fuel+1) l w
          = (getPat st l.1).children.foldl
              (fun w2 l2 => wVisit st (sizeFor total) fuel l2 w2)
              ⟨w.seen ++ [l.1],
               w.out ++ [l.2 + 128]
                 ++ ((getPat st l.1).bits.drop 1).flatMap
                      (fun b => u16BE (b.toNat % 65536))
                 ++ u16BE ((getPat st l.1).children.length % 65536)⟩ ∧
        128 ≤ l.2 + 128 ∧ l.2 + 128 ≤ 130) ∧
    (total < 256 → sizeFor total = 1) ∧
    (256 ≤ total → total < 65536 → sizeFor total = 2) ∧
    (65536 ≤ total → sizeFor total = 4) := by
  have hsz : sizeFor total = 1 ∨ sizeFor total = 2 ∨ sizeFor total = 4 := by
    unfold sizeFor
    by_cases h1 : total < 256
    · simp [h1]
    · by_cases h2 : total < 65536 <;> simp [h1, h2]
  have h128 : l.2 ||| 128 = l.2 + 128 := by
    rcases (by omega : l.2 = 0 ∨ l.2 = 1 ∨ l.2 = 2) with h | h | h <;>
      rw [h] <;> decide
  refine ⟨?_, ?_, ?_, ?_, ?_⟩
  · intro i hp hi
    refine ⟨?_, ?_, beIdx_length _ _, beIdx_decode _ i hsz hi⟩ <;>
      simp [wVisit, hp]
  · intro hp
    refine ⟨?_, by omega, by omega⟩
    simp only [wVisit, hp, h128]
  · intro h1; simp [sizeFor, h1]
  · intro h1 h2
    have h3 : ¬ total < 256 := by omega
    simp [sizeFor, h3, h2]
  · intro h1
    have h2 : ¬ total < 256 := by omega
    have h3 : ¬ total < 65536 := by omega
    simp [sizeFor, h2, h3]

/-- C6 witness: a back-reference visit on the two-pattern tree of the
trivial-parameter build, with pattern 1 already recorded at index 0. -/
theorem c6_serialization_format_witness :
    (wVisit (GenerateFull ⟨1, 1, [0, 1], 0⟩).1 (sizeFor 2) 5 (1, 0)
        ⟨[1, 0], []⟩).out
      = [] ++ [0] ++ beIdx (sizeFor 2) 0 ∧
    (wVisit (GenerateFull ⟨1, 1, [0, 1], 0⟩).1 (sizeFor 2) 5 (1, 0)
        ⟨[1, 0], []⟩).seen = [1, 0] := by
  have h := (c6_serialization_format (GenerateFull ⟨1, 1, [0, 1], 0⟩).1
    2 4 (1, 0) ⟨[1, 0], []⟩ (by decide)).1 0 (by decide) (by decide)
  exact ⟨h.1, h.2.1⟩

/-!  Stored-pattern invariants of the generator (claims C4 and C5).  The
generic preservation argument: a predicate on stored patterns that is
insensitive to the mutable `children`/`minDepth` fields, holds for the
all-zero root, and holds for every `ChildIter` candidate that passes the
`TestSlope`/`LineCheck` filters at its insertion depth, holds for every
pattern in the final hash table. -/

/-- All stored patterns satisfy `Q`. -/
def StoreInv (Q : GenPat → Prop) (st : GenState) : Prop := ∀ p ∈ st, Q p

theorem mem_modifyAt (f : GenPat → GenPat) :
    ∀ (n : Nat) (l : GenState) (p : GenPat), p ∈ modifyAt f n l →
      p ∈ l ∨ ∃ q ∈ l, p = f q
  | _, [], p, h => by simp [modifyAt] at h
  | 0, a :: as, p, h => by
    rcases List.mem_cons.mp h with h | h
    · exact Or.inr ⟨a, List.mem_cons_self a as, h⟩
    · exact Or.inl (List.mem_cons_of_mem a h)
  | n+1, a :: as, p, h => by
    rcases List.mem_cons.mp h with h | h
    · exact Or.inl (h ▸ List.mem_cons_self a as)
    · rcases mem_modifyAt f n as p h with h1 | ⟨q, hq, hq2⟩
      · exact Or.inl (List.mem_cons_of_mem a h1)
      · exact Or.inr ⟨q, List.mem_cons_of_mem a hq, hq2⟩

theorem storeInv_modifyAt {Q : GenPat → Prop} {f : GenPat → GenPat}
    (hf : ∀ p, Q p → Q (f p)) (n : Nat) {l : GenState}
    (h : StoreInv Q l) : StoreInv Q (modifyAt f n l) := by
  intro p hp
  rcases mem_modifyAt f n l p hp with h1 | ⟨q, hq, rfl⟩
  · exact h p h1
  · exact hf q (h q hq)

theorem storeInv_getPat {Q : GenPat → Prop} {st : GenState}
    (h : StoreInv Q st) (hd : Q default) (j : Nat) : Q (getPat st j) := by
  unfold getPat
  rw [List.getD_eq_getElem?_getD]
  cases hj : st[j]? with
  | none => exact hd
  | some p => exact h p (List.getElem?_mem hj)

theorem storeInv_usedAtDepth {Q : GenPat → Prop}
    (hmod : ∀ (p : GenPat) ch md, Q p → Q ⟨p.bits, ch, md, p.insDepth⟩)
    {st : GenState} (j d : Nat) (h : StoreInv Q st) :
    StoreInv Q (usedAtDepth st j d) := by
  refine storeInv_modifyAt ?_ j h
  intro p hp
  by_cases hlt : d < p.minDepth
  · simpa [hlt] using hmod p p.children d hp
  · simpa [hlt] using hp

theorem storeInv_addChild {Q : GenPat → Prop}
    (hmod : ∀ (p : GenPat) ch md, Q p → Q ⟨p.bits, ch, md, p.insDepth⟩)
    {st : GenState} (a b c : Nat) (h : StoreInv Q st) :
    StoreInv Q (addChild st a b c) :=
  storeInv_modifyAt (fun p hp => hmod p ((b, c) :: p.children) p.minDepth hp)
    a h

theorem storeInv_processCand {Q : GenPat → Prop}
    (ts : List Int → Nat → Bool) (lc : List Int → Bool)
    (depth pIdx : Nat) {st : GenState} (cand : List Int × Nat)
    (h : StoreInv Q st)
    (hmod : ∀ (p : GenPat) ch md, Q p → Q ⟨p.bits, ch, md, p.insDepth⟩)
    (hnew : ts cand.1 depth = true → lc cand.1 = true →
      Q ⟨cand.1, [], uintMax, depth⟩) :
    StoreInv Q (processCand ts lc depth pIdx st cand) := by
  cases hf : findIdx st cand.1 with
  | some j =>
    simp only [processCand, hf]
    by_cases hc : (decide ((getPat st j).minDepth ≤ depth)
        || ts (getPat st j).bits depth) = true
    · rw [if_pos hc]
      exact storeInv_addChild hmod pIdx j cand.2 h
    · rw [if_neg hc]
      exact h
  | none =>
    simp only [processCand, hf]
    by_cases hc : (ts cand.1 depth && lc cand.1) = true
    · rw [if_pos hc]
      rcases Bool.and_eq_true_iff.mp hc with ⟨hts, hlc⟩
      refine storeInv_addChild hmod pIdx st.length cand.2 ?_
      intro p hp
      rcases List.mem_append.mp hp with h1 | h1
      · exact h p h1
      · rcases List.mem_singleton.mp h1 with rfl
        exact hnew hts hlc
    · simpa [hc] using h

theorem storeInv_candFold {Q : GenPat → Prop}
    (ts : List Int → Nat → Bool) (lc : List Int → Bool)
    (depth pIdx : Nat)
    (hmod : ∀ (p : GenPat) ch md, Q p → Q ⟨p.bits, ch, md, p.insDepth⟩) :
    ∀ (cl : List (List Int × Nat)) (st : GenState), StoreInv Q st →
      (∀ cand ∈ cl, ts cand.1 depth = true → lc cand.1 = true →
        Q ⟨cand.1, [], uintMax, depth⟩) →
      StoreInv Q (cl.foldl (processCand ts lc depth pIdx) st)
  | [], st, h, _ => h
  | cand :: cl, st, h, hnews => by
    rw [List.foldl_cons]
    exact storeInv_candFold ts lc depth pIdx hmod cl _
      (storeInv_processCand ts lc depth pIdx cand h hmod
        (hnews cand (List.mem_cons_self cand cl)))
      (fun x hx => hnews x (List.mem_cons_of_mem cand hx))

theorem storeInv_linkFold {Q : GenPat → Prop}
    (ts : List Int → Nat → Bool) (lc : List Int → Bool)
    (nLevels fuel : Nat)
    (ih : ∀ (pIdx depth : Nat) (st : GenState), StoreInv Q st →
      StoreInv Q (makeChildNodes ts lc nLevels fuel pIdx depth st)) :
    ∀ (ls : List (Nat × Nat)) (depth : Nat) (st : GenState), StoreInv Q st →
      StoreInv Q (ls.foldl
        (fun s l =>
          if (getPat s l.1).children.isEmpty
              || depth < (getPat s l.1).minDepth then
            makeChildNodes ts lc nLevels fuel l.1 (depth + 1) s
          else s) st)
  | [], _, st, h => h
  | l :: ls, depth, st, h => by
    rw [List.foldl_cons]
    refine storeInv_linkFold ts lc nLevels fuel ih ls depth _ ?_
    by_cases hc : ((getPat st l.1).children.isEmpty
        || decide (depth < (getPat st l.1).minDepth)) = true
    · rw [if_pos hc]
      exact ih l.1 (depth + 1) st h
    · rw [if_neg hc]
      exact h

theorem storeInv_makeChildNodes {Q : GenPat → Prop}
    (ts : List Int → Nat → Bool) (lc : List Int → Bool) (nLevels : Nat)
    (hmod : ∀ (p : GenPat) ch md, Q p → Q ⟨p.bits, ch, md, p.insDepth⟩)
    (hdef : Q default)
    (hcand : ∀ (pb : GenPat) (depth : Nat) (cand : List Int × Nat), Q pb →
      cand ∈ childCandidates pb.bits → ts cand.1 depth = true →
      lc cand.1 = true → Q ⟨cand.1, [], uintMax, depth⟩) :
    ∀ (fuel pIdx depth : Nat) (st : GenState), StoreInv Q st →
      StoreInv Q (makeChildNodes ts lc nLevels fuel pIdx depth st)
  | 0, _, _, st, h => h
  | fuel+1, pIdx, depth, st, h => by
    have h1 : StoreInv Q
        (if 0 < depth then usedAtDepth st pIdx (depth - 1) else st) := by
      by_cases hd : 0 < depth
      · simpa [hd] using storeInv_usedAtDepth hmod pIdx (depth - 1) h
      · simpa [hd] using h
    simp only [makeChildNodes]
    by_cases hlev : nLevels ≤ depth
    · simpa [hlev] using h1
    · rw [if_neg hlev]
      set st1 := if 0 < depth then usedAtDepth st pIdx (depth - 1) else st
        with hst1
      have h2 : StoreInv Q
          (if (getPat st1 pIdx).children.isEmpty then
            (childCandidates (getPat st1 pIdx).bits).foldl
              (processCand ts lc depth pIdx) st1
          else st1) := by
        by_cases hce : (getPat st1 pIdx).children.isEmpty = true
        · rw [if_pos hce]
          exact storeInv_candFold ts lc depth pIdx hmod _ st1 h1
            (fun cand hcmem => hcand (getPat st1 pIdx) depth cand
              (storeInv_getPat h1 hdef pIdx) hcmem)
        · rw [if_neg hce]
          exact h1
      exact storeInv_linkFold ts lc nLevels fuel
        (storeInv_makeChildNodes ts lc nLevels hmod hdef hcand fuel)
        _ depth _ h2

theorem storeInv_generateTable {Q : GenPat → Prop}
    (ts : List Int → Nat → Bool) (lc : List Int → Bool)
    (nLevels nPlanes : Nat)
    (hmod : ∀ (p : GenPat) ch md, Q p → Q ⟨p.bits, ch, md, p.insDepth⟩)
    (hdef : Q default)
    (hcand : ∀ (pb : GenPat) (depth : Nat) (cand : List Int × Nat), Q pb →
      cand ∈ childCandidates pb.bits → ts cand.1 depth = true →
      lc cand.1 = true → Q ⟨cand.1, [], uintMax, depth⟩)
    (hroot : Q ⟨List.replicate nPlanes 0, [], uintMax, 0⟩) :
    StoreInv Q (generateTable ts lc nLevels nPlanes) := by
  refine storeInv_makeChildNodes ts lc nLevels hmod hdef hcand
    (nLevels + 1) 0 1 _ ?_
  intro p hp
  rcases List.mem_singleton.mp hp with rfl
  exact hroot

/-!  All-zero root pattern facts (for claim C4). -/

theorem getD_replicate_zero : ∀ (n i : Nat),
    (List.replicate n (0 : Int)).getD i 0 = 0
  | 0, _ => rfl
  | _+1, 0 => rfl
  | n+1, i+1 => getD_replicate_zero n i

theorem getLastD_replicate_zero : ∀ (n : Nat),
    (List.replicate n (0 : Int)).getLastD 0 = 0
  | 0 => rfl
  | n+1 => by
    rw [List.replicate_succ, List.getLastD_cons]
    exact getLastD_replicate_zero n

theorem headD_replicate_zero (n : Nat) :
    (List.replicate n (0 : Int)).headD 0 = 0 := by
  cases n <;> rfl

theorem testSlope_allzero (s : ℚ) (n : Nat) :
    testSlopeQ s (List.replicate n 0) 0 = true := by
  simp only [testSlopeQ]
  rw [getLastD_replicate_zero, headD_replicate_zero]
  rfl

theorem lineCheckLoop_allzero (z : List ℚ) (n : Nat) :
    ∀ (i : Nat) (zL zR : ℚ), 0 < zL → 0 < zR →
      lineCheckLoop z (List.replicate n 0) i 0 0 zL zR = true
  | 0, _, _, _, _ => rfl
  | i+1, zL, zR, hzL, hzR => by
    have hp : ((List.replicate n (0 : Int)).getD (i+1) 0) = 0 :=
      getD_replicate_zero n (i+1)
    simp only [lineCheckLoop, hp, Int.cast_zero, zero_mul, mul_zero,
      sub_zero, sub_self, abs_zero, lt_self_iff_false, if_false, ite_self]
    rw [if_neg (not_le.mpr hzL), if_neg (not_le.mpr hzR)]
    exact lineCheckLoop_allzero z n i zL zR hzL hzR

theorem lineCheck_allzero (z : List ℚ) (n : Nat)
    (hz : 0 < z.getD (n - 1) 0) :
    lineCheckQ z (List.replicate n 0) = true := by
  simp only [lineCheckQ, List.length_replicate]
  rw [getD_replicate_zero, Int.cast_zero]
  exact lineCheckLoop_allzero z n (n - 2) _ _ hz hz

/-- C4 (amended): every pattern stored in the hash table passes
`LineCheck`, and passes `TestSlope` at the depth at which it was inserted
(its `insDepth` bookkeeping field).  The z-position hypothesis says the
last normalized plane position is positive, which `Normalize` guarantees
(it maps the strictly increasing z positions onto `[0,1]`). -/
theorem c4_stored_patterns_pass_checks_at_insertion
    (s : ℚ) (z : List ℚ) (nLevels nPlanes : Nat)
    (hz : 0 < z.getD (nPlanes - 1) 0) :
    ∀ p ∈ generateTable (testSlopeQ s) (lineCheckQ z) nLevels nPlanes,
      lineCheckQ z p.bits = true ∧ testSlopeQ s p.bits p.insDepth = true := by
  refine storeInv_generateTable (testSlopeQ s) (lineCheckQ z) nLevels nPlanes
    ?_ ?_ ?_ ?_
  · intro p ch md hp
    exact hp
  · exact ⟨rfl, rfl⟩
  · intro pb depth cand _ _ hts hlc
    exact ⟨hlc, hts⟩
  · exact ⟨lineCheck_allzero z nPlanes hz, testSlope_allzero s nPlanes⟩

/-!  Normalization and canonicalization of `ChildIter` output (claim C5). -/

theorem foldr_min_le_init : ∀ (l : List Int) (a : Int), l.foldr min a ≤ a
  | [], a => le_refl a
  | _ :: bs, a => le_trans (min_le_right _ _) (foldr_min_le_init bs a)

theorem foldr_min_le_mem :
    ∀ (l : List Int) (a b : Int), b ∈ l → l.foldr min a ≤ b
  | [], _, b, h => absurd h (List.not_mem_nil b)
  | x :: xs, a, b, h => by
    rcases List.mem_cons.mp h with rfl | h
    · exact min_le_left _ _
    · exact le_trans (min_le_right _ _) (foldr_min_le_mem xs a b h)

theorem le_foldr_min :
    ∀ (l : List Int) (a c : Int), c ≤ a → (∀ b ∈ l, c ≤ b) →
      c ≤ l.foldr min a
  | [], _, _, h, _ => h
  | x :: xs, a, c, h, hb =>
    le_min (hb x (List.mem_cons_self x xs))
      (le_foldr_min xs a c h (fun b hm => hb b (List.mem_cons_of_mem x hm)))

theorem le_foldr_max_init : ∀ (l : List Int) (a : Int), a ≤ l.foldr max a
  | [], a => le_refl a
  | _ :: bs, a => le_trans (le_foldr_max_init bs a) (le_max_right _ _)

theorem mem_le_foldr_max :
    ∀ (l : List Int) (a b : Int), b ∈ l → b ≤ l.foldr max a
  | [], _, b, h => absurd h (List.not_mem_nil b)
  | x :: xs, a, b, h => by
    rcases List.mem_cons.mp h with rfl | h
    · exact le_max_left _ _
    · exact le_trans (mem_le_foldr_max xs a b h) (le_max_right _ _)

theorem getD_mem_of_lt (l : List Int) (i : Nat) (d : Int)
    (h : i < l.length) : l.getD i d ∈ l := by
  rw [List.getD_eq_getElem l d h]
  exact List.getElem_mem h

theorem getD_zero_eq_headD (l : List Int) (d : Int) :
    l.getD 0 d = l.headD d := by
  cases l <;> rfl

theorem range_map_cons (f : Nat → Int) (k : Nat) :
    (List.range (k+1)).map f
      = f 0 :: ((List.range k).map (fun i => f (i+1))) := by
  rw [List.range_succ_eq_map, List.map_cons, List.map_map]
  rfl

/-- The key step for claim C5: any child that a `ChildIter` over a
normalized, nonnegative parent pattern yields — i.e. that passes the width
filter and went through shift normalization and mirror canonicalization —
again has first bit 0 and only nonnegative bits. -/
theorem mkChild_normalized (parent : List Int) (c : Nat)
    (bts : List Int) (ty : Nat) (hne : parent ≠ [])
    (_hh : parent.headD 0 = 0) (hpos : ∀ b ∈ parent, 0 ≤ b)
    (h : mkChild parent c = some (bts, ty)) :
    bts ≠ [] ∧ bts.headD 0 = 0 ∧ ∀ b ∈ bts, 0 ≤ b := by
  have hn : 0 < parent.length := List.length_pos.mpr hne
  simp only [mkChild] at h
  set n := parent.length with hndef
  set bbs := (List.range n).map (childBit parent c) with hbbs
  set m := bbs.foldr min 1 with hmdef
  set M := bbs.foldr max 0 with hMdef
  set w := childBit parent c (n - 1) - childBit parent c 0 with hwdef
  by_cases hfil : (w.natAbs : Int) < M - m
  · rw [if_pos hfil] at h
    exact absurd h (by simp)
  rw [if_neg hfil] at h
  push_neg at hfil
  have hb0mem : childBit parent c 0 ∈ bbs := by
    rw [hbbs]
    exact List.mem_map_of_mem _ (List.mem_range.mpr hn)
  have hblmem : childBit parent c (n-1) ∈ bbs := by
    rw [hbbs]
    exact List.mem_map_of_mem _ (List.mem_range.mpr (by omega))
  have hallpos : ∀ b ∈ bbs, 0 ≤ b := by
    intro b hb
    rw [hbbs] at hb
    obtain ⟨i, hi, rfl⟩ := List.mem_map.mp hb
    have h1 : 0 ≤ parent.getD i 0 :=
      hpos _ (getD_mem_of_lt parent i 0 (List.mem_range.mp hi))
    have h2 : (0:Int) ≤ if c.testBit i then 1 else 0 := by
      split <;> norm_num
    unfold childBit
    omega
  have hm1 : m ≤ 1 := foldr_min_le_init bbs 1
  have hm0 : 0 ≤ m := le_foldr_min bbs 1 0 (by norm_num) hallpos
  have hb0M : childBit parent c 0 ≤ M := mem_le_foldr_max bbs 0 _ hb0mem
  have hblM : childBit parent c (n-1) ≤ M := mem_le_foldr_max bbs 0 _ hblmem
  have hmb0 : m ≤ childBit parent c 0 := foldr_min_le_mem bbs 1 _ hb0mem
  have hmbl : m ≤ childBit parent c (n-1) := foldr_min_le_mem bbs 1 _ hblmem
  obtain ⟨k, hk⟩ : ∃ k, n = k + 1 := ⟨n - 1, by omega⟩
  have hcons : bbs = childBit parent c 0
      :: ((List.range k).map (fun i => childBit parent c (i+1))) := by
    rw [hbbs, hk, range_map_cons]
  by_cases hw : w < 0
  · rw [if_pos hw] at h
    rw [Option.some.injEq, Prod.mk.injEq] at h
    obtain ⟨hbts, _⟩ := h
    have habs : (w.natAbs : Int) = -w :=
      Int.ofNat_natAbs_of_nonpos (le_of_lt hw)
    rw [habs] at hfil hbts
    have hb0eq : childBit parent c 0 = M := by omega
    have hw2 : -w = M - m := by omega
    by_cases hm : m = 0
    · rw [if_pos hm] at hbts
      subst hbts
      refine ⟨by rw [hcons]; simp, ?_, ?_⟩
      · rw [hcons]
        simp only [List.map_cons, List.headD_cons]
        omega
      · intro b hb
        obtain ⟨x, hx, rfl⟩ := List.mem_map.mp hb
        have := mem_le_foldr_max bbs 0 x hx
        omega
    · have hm1eq : m = 1 := by omega
      rw [if_neg hm] at hbts
      subst hbts
      rw [List.map_map]
      refine ⟨by rw [hcons]; simp, ?_, ?_⟩
      · rw [hcons]
        simp only [List.map_cons, List.headD_cons, Function.comp]
        omega
      · intro b hb
        obtain ⟨x, hx, rfl⟩ := List.mem_map.mp hb
        have := mem_le_foldr_max bbs 0 x hx
        simp only [Function.comp]
        omega
  · rw [if_neg hw] at h
    rw [Option.some.injEq, Prod.mk.injEq] at h
    obtain ⟨hbts, _⟩ := h
    have habs : (w.natAbs : Int) = w :=
      Int.natAbs_of_nonneg (not_lt.mp hw)
    rw [habs] at hfil
    have hb0eq : childBit parent c 0 = m := by omega
    by_cases hm : m = 0
    · rw [if_pos hm] at hbts
      subst hbts
      refine ⟨by rw [hcons]; simp, ?_, hallpos⟩
      rw [hcons]
      simp only [List.headD_cons]
      omega
    · have hm1eq : m = 1 := by omega
      rw [if_neg hm] at hbts
      subst hbts
      refine ⟨by rw [hcons]; simp, ?_, ?_⟩
      · rw [hcons]
        simp only [List.map_cons, List.headD_cons]
        omega
      · intro b hb
        obtain ⟨x, hx, rfl⟩ := List.mem_map.mp hb
        have := foldr_min_le_mem bbs 1 x hx
        omega

/-- C5: every pattern stored in the generator's hash table — the all-zero
root as well as every `ChildIter` child that passed the filters — is
normalized and canonical: nonempty bits, first bit 0, all bits
nonnegative, and nonnegative width `max(bits) - min(bits)`.  The filter
predicates are arbitrary, so this holds whatever `TestSlope` and
`LineCheck` accept. -/
theorem c5_stored_patterns_normalized (ts : List Int → Nat → Bool)
    (lc : List Int → Bool) (nLevels nPlanes : Nat) (hn : 0 < nPlanes) :
    ∀ p ∈ generateTable ts lc nLevels nPlanes,
      p.bits ≠ [] ∧ p.bits.headD 0 = 0 ∧
        0 ≤ p.bits.foldr max 0 - p.bits.foldr min 0 := by
  have hinv : StoreInv
      (fun p => p.bits ≠ [] ∧ p.bits.headD 0 = 0 ∧ ∀ b ∈ p.bits, 0 ≤ b)
      (generateTable ts lc nLevels nPlanes) := by
    refine storeInv_generateTable ts lc nLevels nPlanes ?_ ?_ ?_ ?_
    · intro p ch md hp
      exact hp
    · refine ⟨by simp, rfl, ?_⟩
      intro b hb
      rcases List.mem_singleton.mp hb with rfl
      norm_num
    · intro pb depth cand hq hmem _ _
      obtain ⟨cc, _, hmk⟩ := List.mem_filterMap.mp hmem
      exact mkChild_normalized pb.bits cc cand.1 cand.2 hq.1 hq.2.1 hq.2.2 hmk
    · refine ⟨?_, ?_, ?_⟩
      · intro hcon
        have := congrArg List.length hcon
        simp at this
        omega
      · exact headD_replicate_zero nPlanes
      · intro b hb
        rw [List.eq_of_mem_replicate hb]
  intro p hp
  obtain ⟨h1, h2, _⟩ := hinv p hp
  have hmax : (0:Int) ≤ p.bits.foldr max 0 := le_foldr_max_init p.bits 0
  have hmin : p.bits.foldr min 0 ≤ 0 := foldr_min_le_init p.bits 0
  exact ⟨h1, h2, by omega⟩

/-- C5 witness: with trivially-true filters and two planes, the root of
the generated table is normalized. -/
theorem c5_stored_patterns_normalized_witness :
    (getPat (generateTable (fun _ _ => true) (fun _ => true) 2 2) 0).bits
        ≠ [] ∧
    (getPat (generateTable (fun _ _ => true) (fun _ => true) 2 2) 0).bits.headD
        0 = 0 := by
  have h := c5_stored_patterns_normalized (fun _ _ => true) (fun _ => true)
    2 2 (by norm_num)
    (getPat (generateTable (fun _ _ => true) (fun _ => true) 2 2) 0)
    (by decide)
  exact ⟨h.1, h.2.1⟩

section ConcreteWitness

attribute [local semireducible] Rat.add Rat.mul Rat.sub Rat.inv

/-- C4 witness: in the counterexample build (maxDepth 4, two planes,
maxSlope 1/2) the pattern stored at index 7 passes `LineCheck` and passes
`TestSlope` at its insertion depth (even though, per the counterexample,
not at its final `fMinDepth`). -/
theorem c4_stored_patterns_pass_checks_at_insertion_witness :
    lineCheckQ [0, 1]
        (getPat (generateTable (testSlopeQ (1/2)) (lineCheckQ [0, 1]) 5 2)
          7).bits = true ∧
    testSlopeQ (1/2)
        (getPat (generateTable (testSlopeQ (1/2)) (lineCheckQ [0, 1]) 5 2)
          7).bits
        (getPat (generateTable (testSlopeQ (1/2)) (lineCheckQ [0, 1]) 5 2)
          7).insDepth = true :=
  c4_stored_patterns_pass_checks_at_insertion (1/2) [0, 1] 5 2 (by norm_num)
    (getPat (generateTable (testSlopeQ (1/2)) (lineCheckQ [0, 1]) 5 2) 7)
    (by decide)

end ConcreteWitness

end TreeSearch
